import Mathlib

/-!
Shallow embedding of the filesystem core of `src/server/file_manager.py`
(the content-addressed organization engine): duplicate detection by
content hash (`find_duplicate_files`), type-based categorization with
collision resolution (`organize_files_by_type`), pattern-based batch
renaming (`batch_rename_files`), and single-pass directory statistics
(`get_directory_statistics`).

Conventions of the embedding:
* a directory traversal (`Path.rglob` / `Path.iterdir`) is modelled as the
  finite list of entries it yields, in traversal order;
* per-file I/O failures (`stat`, open/read during hashing) are modelled as
  `Option`-valued fields / a boolean success oracle, since they are
  environment nondeterminism;
* the content hash (MD5 in the source) is an abstract parameter
  `hash : α → β`: the source computes it as a pure function of the byte
  content of the file;
* machine paths and names are Lean `String`s; `str.lower()` is embedded
  for the ASCII range, which covers every extension in the category table.
-/

namespace FileManager

/-- The kind of root path handed to an operation: `missing` (the path does
not exist), `nonDir` (it exists but is not a directory — `Path.rglob`
yields nothing on such a path, while `Path.iterdir` raises
`NotADirectoryError`), or a directory whose recursive traversal yields
`entries`. -/
inductive FsRoot (ε : Type) where
  | missing : FsRoot ε
  | nonDir : FsRoot ε
  | dir (entries : List ε) : FsRoot ε

/-- Structured outcome of the `except`-driven error reporting of the
source: every public operation returns either a result or an error
message; `notFound` models the explicit "does not exist" early return,
`other` models any caught exception formatted into the reply. -/
inductive OpError where
  | notFound : OpError
  | other (msg : String) : OpError
deriving DecidableEq, Repr

/-! ### find_duplicate_files -/

/-- One regular file met by `rglob` in `find_duplicate_files`:
`size = none` models a failing `stat` (the `except: continue` skips the
file before it is counted), `content = none` models a failure while
opening/reading the file inside `get_file_hash` (the file is counted but
not grouped). -/
structure ScanEntry (α : Type) where
  path : String
  size : Option Nat
  content : Option α
deriving DecidableEq, Repr

/-- `file_hashes[file_hash].append(file_path)` on the insertion-ordered
`defaultdict(list)`: append the path to the group of its digest, creating
the group at the end on first sight of the digest. -/
def addToGroup {β : Type} [DecidableEq β] (groups : List (β × List String))
    (h : β) (p : String) : List (β × List String) :=
  match groups with
  | [] => [(h, [p])]
  | (k, ps) :: rest =>
    if k = h then (k, ps ++ [p]) :: rest else (k, ps) :: addToGroup rest h p

/-- Running state of the scan loop: `total_files` and `file_hashes`. -/
structure ScanState (β : Type) where
  total : Nat
  groups : List (β × List String)
deriving DecidableEq, Repr

/-- Body of the `for file_path in path_obj.rglob('*')` loop of
`find_duplicate_files`: skip on stat failure; if the size passes
`file_size >= min_size`, count the file, then hash and group it (a hash
failure leaves it counted but ungrouped). -/
def scanStep {α β : Type} [DecidableEq β] (hash : α → β) (minSize : Nat)
    (st : ScanState β) (e : ScanEntry α) : ScanState β :=
  match e.size with
  | none => st
  | some s =>
    if minSize ≤ s then
      match e.content with
      | some c => ⟨st.total + 1, addToGroup st.groups (hash c) e.path⟩
      | none => ⟨st.total + 1, st.groups⟩
    else st

/-- The whole scan loop of `find_duplicate_files` over the traversal. -/
def scanFiles {α β : Type} [DecidableEq β] (hash : α → β) (minSize : Nat)
    (files : List (ScanEntry α)) : ScanState β :=
  files.foldl (scanStep hash minSize) ⟨0, []⟩

/-- `duplicates = {h: fs for h, fs in file_hashes.items() if len(fs) > 1}`. -/
def duplicateGroups {α β : Type} [DecidableEq β] (hash : α → β) (minSize : Nat)
    (files : List (ScanEntry α)) : List (β × List String) :=
  (scanFiles hash minSize files).groups.filter (fun g => 1 < g.2.length)

/-- The member list recorded for digest `d` (empty if no group exists). -/
def groupMembers {β : Type} [DecidableEq β] (groups : List (β × List String))
    (d : β) : List String :=
  match groups.find? (fun g => decide (g.1 = d)) with
  | some g => g.2
  | none => []

/-- The paths `find_duplicate_files` inserts under digest `d`, in
traversal order: files whose stat succeeds, whose size passes the
threshold, and whose content hashes to `d`. -/
def contrib {α β : Type} [DecidableEq β] (hash : α → β) (minSize : Nat)
    (d : β) (files : List (ScanEntry α)) : List String :=
  files.filterMap (fun e =>
    match e.size, e.content with
    | some s, some c =>
      if minSize ≤ s ∧ hash c = d then some e.path else none
    | _, _ => none)

/-- Whether an entry is counted by `total_files`: its stat succeeds and
its size passes the threshold. -/
def sizeOk {α : Type} (minSize : Nat) (e : ScanEntry α) : Bool :=
  match e.size with
  | some s => decide (minSize ≤ s)
  | none => false

/-- `find_duplicate_files` with root handling: a missing root is the
explicit "does not exist" reply; a root that exists but is not a
directory is *not* rejected — `rglob` silently yields nothing, and the
function succeeds over an empty scan. -/
def findDuplicatesRun {α β : Type} [DecidableEq β] (hash : α → β)
    (minSize : Nat) (root : FsRoot (ScanEntry α)) :
    Except OpError (Nat × List (β × List String)) :=
  match root with
  | .missing => .error .notFound
  | .nonDir => .ok ((scanFiles hash minSize []).total, duplicateGroups hash minSize [])
  | .dir es => .ok ((scanFiles hash minSize es).total, duplicateGroups hash minSize es)

namespace Scan

variable {α β : Type} [DecidableEq β]

theorem groupMembers_addToGroup (groups : List (β × List String)) (h : β)
    (p : String) (d : β) :
    groupMembers (addToGroup groups h p) d =
      groupMembers groups d ++ (if h = d then [p] else []) := by
  induction groups with
  | nil =>
    by_cases hd : h = d <;> simp [addToGroup, groupMembers, hd]
  | cons g rest ih =>
    obtain ⟨k, ps⟩ := g
    by_cases hk : k = h
    · subst hk
      by_cases hd : k = d <;> simp [addToGroup, groupMembers, hd]
    · by_cases hd : k = d
      · subst hd
        have hne : ¬ h = k := fun hh => hk hh.symm
        simp [addToGroup, groupMembers, hk, hne]
      · simp only [addToGroup, if_neg hk]
        simpa [groupMembers, hd] using ih

theorem groupMembers_scanStep (hash : α → β) (m : Nat) (st : ScanState β)
    (e : ScanEntry α) (d : β) :
    groupMembers (scanStep hash m st e).groups d =
      groupMembers st.groups d ++ contrib hash m d [e] := by
  rcases e with ⟨p, sz, ct⟩
  cases sz with
  | none => simp [scanStep, contrib]
  | some s =>
    by_cases hs : m ≤ s
    · cases ct with
      | none => simp [scanStep, contrib, hs]
      | some c =>
        by_cases hc : hash c = d
        · simp [scanStep, contrib, hs, hc, groupMembers_addToGroup]
        · simp [scanStep, contrib, hs, hc, groupMembers_addToGroup]
    · cases ct <;> simp [scanStep, contrib, hs]

theorem contrib_append (hash : α → β) (m : Nat) (d : β)
    (l₁ l₂ : List (ScanEntry α)) :
    contrib hash m d (l₁ ++ l₂) = contrib hash m d l₁ ++ contrib hash m d l₂ := by
  simp [contrib]

theorem groupMembers_foldl (hash : α → β) (m : Nat)
    (files : List (ScanEntry α)) (st : ScanState β) (d : β) :
    groupMembers (files.foldl (scanStep hash m) st).groups d =
      groupMembers st.groups d ++ contrib hash m d files := by
  induction files generalizing st with
  | nil => simp [contrib]
  | cons e es ih =>
    have : (e :: es) = [e] ++ es := rfl
    rw [List.foldl_cons, ih, this, contrib_append, groupMembers_scanStep]
    simp

theorem groupMembers_scanFiles (hash : α → β) (m : Nat)
    (files : List (ScanEntry α)) (d : β) :
    groupMembers (scanFiles hash m files).groups d = contrib hash m d files := by
  have h := groupMembers_foldl hash m files ⟨0, []⟩ d
  simpa [scanFiles, groupMembers] using h

theorem total_scanStep (hash : α → β) (m : Nat) (st : ScanState β)
    (e : ScanEntry α) :
    (scanStep hash m st e).total = st.total + (if sizeOk m e then 1 else 0) := by
  rcases e with ⟨p, sz, ct⟩
  cases sz with
  | none => simp [scanStep, sizeOk]
  | some s =>
    by_cases hs : m ≤ s
    · cases ct <;> simp [scanStep, sizeOk, hs]
    · simp [scanStep, sizeOk, hs]

theorem total_foldl (hash : α → β) (m : Nat) (files : List (ScanEntry α))
    (st : ScanState β) :
    (files.foldl (scanStep hash m) st).total = st.total + files.countP (sizeOk m) := by
  induction files generalizing st with
  | nil => simp
  | cons e es ih =>
    rw [List.foldl_cons, ih, total_scanStep, List.countP_cons]
    by_cases h : sizeOk m e = true
    · simp only [h, if_true]; omega
    · simp only [h, if_false]; omega

theorem keys_addToGroup (gs : List (β × List String)) (h : β) (p : String) :
    (addToGroup gs h p).map Prod.fst =
      if h ∈ gs.map Prod.fst then gs.map Prod.fst else gs.map Prod.fst ++ [h] := by
  induction gs with
  | nil => simp [addToGroup]
  | cons g rest ih =>
    obtain ⟨k, ps⟩ := g
    by_cases hk : k = h
    · subst hk; simp [addToGroup]
    · have hk' : ¬ h = k := fun hh => hk hh.symm
      by_cases hm : h ∈ rest.map Prod.fst <;>
        simp [addToGroup, hk, hk', hm, ih]

theorem nodupKeys_addToGroup (gs : List (β × List String)) (h : β) (p : String)
    (hn : (gs.map Prod.fst).Nodup) :
    ((addToGroup gs h p).map Prod.fst).Nodup := by
  rw [keys_addToGroup]
  by_cases hm : h ∈ gs.map Prod.fst
  · simpa [hm] using hn
  · simp only [hm, if_false, List.nodup_append]
    refine ⟨hn, List.nodup_singleton h, ?_⟩
    intro a ha hb
    rw [List.mem_singleton] at hb
    subst hb
    exact hm ha

theorem nodupKeys_scanStep (hash : α → β) (m : Nat) (st : ScanState β)
    (e : ScanEntry α) (hn : (st.groups.map Prod.fst).Nodup) :
    (((scanStep hash m st e).groups).map Prod.fst).Nodup := by
  rcases e with ⟨p, sz, ct⟩
  cases sz with
  | none => simpa [scanStep] using hn
  | some s =>
    by_cases hs : m ≤ s
    · cases ct with
      | none => simpa [scanStep, hs] using hn
      | some c => simpa [scanStep, hs] using nodupKeys_addToGroup st.groups (hash c) p hn
    · simpa [scanStep, hs] using hn

theorem nodupKeys_scanFiles (hash : α → β) (m : Nat) (files : List (ScanEntry α)) :
    (((scanFiles hash m files).groups).map Prod.fst).Nodup := by
  suffices h : ∀ st : ScanState β, (st.groups.map Prod.fst).Nodup →
      (((files.foldl (scanStep hash m) st).groups).map Prod.fst).Nodup by
    exact h ⟨0, []⟩ (by simp)
  induction files with
  | nil => intro st hst; simpa using hst
  | cons e es ih =>
    intro st hst
    exact ih _ (nodupKeys_scanStep hash m st e hst)

theorem groupMembers_of_mem (gs : List (β × List String))
    (hn : (gs.map Prod.fst).Nodup) (d : β) (ps : List String)
    (hm : (d, ps) ∈ gs) : groupMembers gs d = ps := by
  induction gs with
  | nil => cases hm
  | cons g rest ih =>
    obtain ⟨k, qs⟩ := g
    rcases List.mem_cons.mp hm with hh | ht
    · obtain ⟨hk, hq⟩ := Prod.mk.injEq .. ▸ hh.symm
      subst hk
      simp [groupMembers, hq.symm]
    · by_cases hk : k = d
      · subst hk
        exfalso
        have : k ∈ rest.map Prod.fst := List.mem_map.mpr ⟨(k, ps), ht, rfl⟩
        simp only [List.map_cons, List.nodup_cons] at hn
        exact hn.1 this
      · have hrest : (rest.map Prod.fst).Nodup := by
          simp only [List.map_cons, List.nodup_cons] at hn
          exact hn.2
        simpa [groupMembers, hk] using ih hrest ht

theorem mem_of_groupMembers_ne (gs : List (β × List String)) (d : β)
    (h : groupMembers gs d ≠ []) : (d, groupMembers gs d) ∈ gs := by
  unfold groupMembers at *
  cases hf : gs.find? (fun g => decide (g.1 = d)) with
  | none => simp [hf] at h
  | some g =>
    have hg := List.mem_of_find?_eq_some hf
    have hp : g.1 = d := by
      have hq := List.find?_some hf
      simpa using hq
    subst hp
    simpa [hf] using hg

theorem of_mem_contrib (hash : α → β) (m : Nat) (d : β)
    (files : List (ScanEntry α)) (p : String) (h : p ∈ contrib hash m d files) :
    ∃ e ∈ files, e.path = p ∧ (∃ s, e.size = some s ∧ m ≤ s) ∧
      (∃ c, e.content = some c ∧ hash c = d) := by
  rcases List.mem_filterMap.mp h with ⟨e, he, hfe⟩
  rcases e with ⟨q, sz, ct⟩
  cases sz with
  | none => simp [contrib] at hfe
  | some s =>
    cases ct with
    | none => simp [contrib] at hfe
    | some c =>
      by_cases hcond : m ≤ s ∧ hash c = d
      · simp only [Option.some.injEq, if_pos hcond] at hfe
        exact ⟨⟨q, some s, some c⟩, he, hfe, ⟨s, rfl, hcond.1⟩, ⟨c, rfl, hcond.2⟩⟩
      · simp [if_neg hcond] at hfe

theorem mem_contrib (hash : α → β) (m : Nat) (files : List (ScanEntry α))
    (e : ScanEntry α) (c : α) (s : Nat) (he : e ∈ files)
    (hc : e.content = some c) (hs : e.size = some s) (hm : m ≤ s) :
    e.path ∈ contrib hash m (hash c) files := by
  refine List.mem_filterMap.mpr ⟨e, he, ?_⟩
  rcases e with ⟨q, sz, ct⟩
  simp only at hc hs
  subst hc hs
  simp [hm]

theorem two_mem_one_lt_length {σ : Type} {a b : σ} {l : List σ}
    (ha : a ∈ l) (hb : b ∈ l) (hab : a ≠ b) : 1 < l.length := by
  cases l with
  | nil => cases ha
  | cons x xs =>
    cases xs with
    | nil =>
      simp only [List.mem_singleton] at ha hb
      exact absurd (ha.trans hb.symm) hab
    | cons y ys => simp

end Scan

/-- Claim C1: for every two files under the scanned root with byte-identical
content (both at or above the minimum-size threshold and both successfully
hashed), `find_duplicate_files` places them in the same duplicate group, and
the grouping (membership of every digest's group) is permutation-invariant
in the traversal order. -/
theorem find_duplicates_same_group_insensitive {α β : Type} [DecidableEq β]
    (hash : α → β) (minSize : Nat) (files files' : List (ScanEntry α))
    (f1 f2 : ScanEntry α) (c : α) (s1 s2 : Nat)
    (h1 : f1 ∈ files) (h2 : f2 ∈ files) (hne : f1.path ≠ f2.path)
    (hc1 : f1.content = some c) (hc2 : f2.content = some c)
    (hs1 : f1.size = some s1) (hm1 : minSize ≤ s1)
    (hs2 : f2.size = some s2) (hm2 : minSize ≤ s2)
    (hperm : files.Perm files') :
    (∃ g ∈ duplicateGroups hash minSize files,
        g.1 = hash c ∧ f1.path ∈ g.2 ∧ f2.path ∈ g.2) ∧
    (∀ d, (groupMembers (scanFiles hash minSize files).groups d).Perm
          (groupMembers (scanFiles hash minSize files').groups d)) := by
  constructor
  · have hmem1 : f1.path ∈ contrib hash minSize (hash c) files :=
      Scan.mem_contrib hash minSize files f1 c s1 h1 hc1 hs1 hm1
    have hmem2 : f2.path ∈ contrib hash minSize (hash c) files :=
      Scan.mem_contrib hash minSize files f2 c s2 h2 hc2 hs2 hm2
    have hchar := Scan.groupMembers_scanFiles hash minSize files (hash c)
    have hmemg1 : f1.path ∈ groupMembers (scanFiles hash minSize files).groups (hash c) := by
      rw [hchar]; exact hmem1
    have hmemg2 : f2.path ∈ groupMembers (scanFiles hash minSize files).groups (hash c) := by
      rw [hchar]; exact hmem2
    have hnil : groupMembers (scanFiles hash minSize files).groups (hash c) ≠ [] := by
      intro h; rw [h] at hmemg1; cases hmemg1
    have hgrp := Scan.mem_of_groupMembers_ne _ (hash c) hnil
    refine ⟨(hash c, groupMembers (scanFiles hash minSize files).groups (hash c)),
      List.mem_filter.mpr ⟨hgrp, ?_⟩, rfl, hmemg1, hmemg2⟩
    exact decide_eq_true (Scan.two_mem_one_lt_length hmemg1 hmemg2 hne)
  · intro d
    rw [Scan.groupMembers_scanFiles, Scan.groupMembers_scanFiles]
    exact hperm.filterMap _

/-- Claim C1 witness: a concrete three-file tree with two byte-identical
files, scanned in two traversal orders. -/
theorem find_duplicates_same_group_insensitive_witness :
    ((⟨"a.txt", some 1, some 5⟩ : ScanEntry Nat) ∈
        ([⟨"a.txt", some 1, some 5⟩, ⟨"b.txt", some 1, some 5⟩,
          ⟨"c.txt", some 1, some 7⟩] : List (ScanEntry Nat))) ∧
    ((⟨"b.txt", some 1, some 5⟩ : ScanEntry Nat) ∈
        ([⟨"a.txt", some 1, some 5⟩, ⟨"b.txt", some 1, some 5⟩,
          ⟨"c.txt", some 1, some 7⟩] : List (ScanEntry Nat))) ∧
    (([⟨"a.txt", some 1, some 5⟩, ⟨"b.txt", some 1, some 5⟩,
       ⟨"c.txt", some 1, some 7⟩] : List (ScanEntry Nat)).Perm
      [⟨"c.txt", some 1, some 7⟩, ⟨"b.txt", some 1, some 5⟩,
       ⟨"a.txt", some 1, some 5⟩]) ∧
    ((∃ g ∈ duplicateGroups (id : Nat → Nat) 0
          [⟨"a.txt", some 1, some 5⟩, ⟨"b.txt", some 1, some 5⟩,
           ⟨"c.txt", some 1, some 7⟩],
        g.1 = id 5 ∧ "a.txt" ∈ g.2 ∧ "b.txt" ∈ g.2) ∧
      (∀ d, (groupMembers (scanFiles (id : Nat → Nat) 0
              [⟨"a.txt", some 1, some 5⟩, ⟨"b.txt", some 1, some 5⟩,
               ⟨"c.txt", some 1, some 7⟩]).groups d).Perm
            (groupMembers (scanFiles (id : Nat → Nat) 0
              [⟨"c.txt", some 1, some 7⟩, ⟨"b.txt", some 1, some 5⟩,
               ⟨"a.txt", some 1, some 5⟩]).groups d))) :=
  ⟨by decide, by decide, by decide,
    find_duplicates_same_group_insensitive (id : Nat → Nat) 0
      [⟨"a.txt", some 1, some 5⟩, ⟨"b.txt", some 1, some 5⟩, ⟨"c.txt", some 1, some 7⟩]
      [⟨"c.txt", some 1, some 7⟩, ⟨"b.txt", some 1, some 5⟩, ⟨"a.txt", some 1, some 5⟩]
      ⟨"a.txt", some 1, some 5⟩ ⟨"b.txt", some 1, some 5⟩ 5 1 1
      (by decide) (by decide) (by decide) (by decide) (by decide)
      (by decide) (by decide) (by decide) (by decide) (by decide)⟩

/-- Claim C6: `find_duplicate_files` never reports a group with fewer than
two members, and every member of a reported group was inserted under that
group's digest (its content hashes to the group key). -/
theorem duplicate_groups_min_two {α β : Type} [DecidableEq β] (hash : α → β)
    (m : Nat) (files : List (ScanEntry α)) (g : β × List String)
    (hg : g ∈ duplicateGroups hash m files) :
    2 ≤ g.2.length ∧
    ∀ p ∈ g.2, ∃ e ∈ files, e.path = p ∧ ∃ c, e.content = some c ∧ hash c = g.1 := by
  obtain ⟨hmem, hlen⟩ := List.mem_filter.mp hg
  refine ⟨by have := of_decide_eq_true hlen; omega, ?_⟩
  intro p hp
  have hkeys := Scan.nodupKeys_scanFiles hash m files
  have hgm : groupMembers (scanFiles hash m files).groups g.1 = g.2 :=
    Scan.groupMembers_of_mem _ hkeys g.1 g.2 hmem
  rw [Scan.groupMembers_scanFiles] at hgm
  have hpc : p ∈ contrib hash m g.1 files := hgm ▸ hp
  rcases Scan.of_mem_contrib hash m g.1 files p hpc with ⟨e, he, hep, _, hcd⟩
  exact ⟨e, he, hep, hcd⟩

/-- Claim C6 witness: a concrete scan producing one group of two members. -/
theorem duplicate_groups_min_two_witness :
    (((5 : Nat), ["a.txt", "b.txt"]) ∈ duplicateGroups (id : Nat → Nat) 0
        [⟨"a.txt", some 1, some 5⟩, ⟨"b.txt", some 1, some 5⟩]) ∧
    (2 ≤ (["a.txt", "b.txt"] : List String).length ∧
      ∀ p ∈ (["a.txt", "b.txt"] : List String),
        ∃ e ∈ ([⟨"a.txt", some 1, some 5⟩, ⟨"b.txt", some 1, some 5⟩] :
            List (ScanEntry Nat)),
          e.path = p ∧ ∃ c, e.content = some c ∧ id c = 5) :=
  ⟨by decide,
    duplicate_groups_min_two (id : Nat → Nat) 0
      [⟨"a.txt", some 1, some 5⟩, ⟨"b.txt", some 1, some 5⟩]
      ((5 : Nat), ["a.txt", "b.txt"]) (by decide)⟩

/-- Claim C7: with threshold `m`, no file of size strictly below `m` (in
fact no file without a successful stat of size at least `m`) is a member of
any reported group, and the "files scanned" total counts exactly the
entries whose stat succeeded with size at least `m`. -/
theorem min_size_threshold_respected {α β : Type} [DecidableEq β]
    (hash : α → β) (m : Nat) (files : List (ScanEntry α)) :
    (∀ g ∈ duplicateGroups hash m files, ∀ p ∈ g.2,
        ∃ e ∈ files, e.path = p ∧ ∃ s, e.size = some s ∧ m ≤ s) ∧
    (scanFiles hash m files).total = files.countP (sizeOk m) := by
  constructor
  · intro g hg p hp
    obtain ⟨hmem, _⟩ := List.mem_filter.mp hg
    have hkeys := Scan.nodupKeys_scanFiles hash m files
    have hgm : groupMembers (scanFiles hash m files).groups g.1 = g.2 :=
      Scan.groupMembers_of_mem _ hkeys g.1 g.2 hmem
    rw [Scan.groupMembers_scanFiles] at hgm
    rcases Scan.of_mem_contrib hash m g.1 files p (hgm ▸ hp) with
      ⟨e, he, hep, hsz, _⟩
    exact ⟨e, he, hep, hsz⟩
  · simpa [scanFiles] using Scan.total_foldl hash m files ⟨0, []⟩

/-- Claim C7 witness: a five-byte threshold excludes a two-byte file from
both the groups and the scanned count. -/
theorem min_size_threshold_respected_witness :
    (((1 : Nat), ["a.txt", "b.txt"]) ∈ duplicateGroups (id : Nat → Nat) 5
        [⟨"a.txt", some 10, some 1⟩, ⟨"b.txt", some 10, some 1⟩,
         ⟨"c.txt", some 2, some 1⟩]) ∧
    ("a.txt" ∈ ["a.txt", "b.txt"]) ∧
    (∃ e ∈ ([⟨"a.txt", some 10, some 1⟩, ⟨"b.txt", some 10, some 1⟩,
        ⟨"c.txt", some 2, some 1⟩] : List (ScanEntry Nat)),
      e.path = "a.txt" ∧ ∃ s, e.size = some s ∧ 5 ≤ s) ∧
    (scanFiles (id : Nat → Nat) 5
        [⟨"a.txt", some 10, some 1⟩, ⟨"b.txt", some 10, some 1⟩,
         ⟨"c.txt", some 2, some 1⟩]).total =
      ([⟨"a.txt", some 10, some 1⟩, ⟨"b.txt", some 10, some 1⟩,
        ⟨"c.txt", some 2, some 1⟩] : List (ScanEntry Nat)).countP (sizeOk 5) :=
  ⟨by decide, by decide,
    (min_size_threshold_respected (id : Nat → Nat) 5
        [⟨"a.txt", some 10, some 1⟩, ⟨"b.txt", some 10, some 1⟩,
         ⟨"c.txt", some 2, some 1⟩]).1
      ((1 : Nat), ["a.txt", "b.txt"]) (by decide) "a.txt" (by decide),
    (min_size_threshold_respected (id : Nat → Nat) 5
        [⟨"a.txt", some 10, some 1⟩, ⟨"b.txt", some 10, some 1⟩,
         ⟨"c.txt", some 2, some 1⟩]).2⟩

/-- Claim C10: a file meeting the size threshold is counted in the scanned
total even when hashing its content fails: the total equals the number of
stat-able files at or above the threshold, while the hash-failed file
appears in no group. -/
theorem scanned_total_counts_hash_failures {α β : Type} [DecidableEq β]
    (hash : α → β) (m : Nat) (files : List (ScanEntry α)) (e : ScanEntry α)
    (s : Nat) (he : e ∈ files) (hs : e.size = some s) (hm : m ≤ s)
    (hc : e.content = none)
    (huniq : ∀ e' ∈ files, e'.path = e.path → e' = e) :
    (scanFiles hash m files).total = files.countP (sizeOk m) ∧
    ∀ d, e.path ∉ groupMembers (scanFiles hash m files).groups d := by
  refine ⟨by simpa [scanFiles] using Scan.total_foldl hash m files ⟨0, []⟩, ?_⟩
  intro d hmem
  rw [Scan.groupMembers_scanFiles] at hmem
  rcases Scan.of_mem_contrib hash m d files e.path hmem with
    ⟨e', he', hep, _, c, hcc, _⟩
  have : e' = e := huniq e' he' hep
  rw [this, hc] at hcc
  cases hcc

/-- Claim C10 witness: a hash-failing file of sufficient size is still
counted (total 2) but belongs to no group. -/
theorem scanned_total_counts_hash_failures_witness :
    ((⟨"a.txt", some 10, none⟩ : ScanEntry Nat) ∈
        ([⟨"a.txt", some 10, none⟩, ⟨"b.txt", some 10, some 1⟩] :
          List (ScanEntry Nat))) ∧
    ((⟨"a.txt", some 10, none⟩ : ScanEntry Nat).size = some 10) ∧
    ((⟨"a.txt", some 10, none⟩ : ScanEntry Nat).content = none) ∧
    (∀ e' ∈ ([⟨"a.txt", some 10, none⟩, ⟨"b.txt", some 10, some 1⟩] :
        List (ScanEntry Nat)),
      e'.path = (⟨"a.txt", some 10, none⟩ : ScanEntry Nat).path →
        e' = ⟨"a.txt", some 10, none⟩) ∧
    ((scanFiles (id : Nat → Nat) 0
        [⟨"a.txt", some 10, none⟩, ⟨"b.txt", some 10, some 1⟩]).total =
      ([⟨"a.txt", some 10, none⟩, ⟨"b.txt", some 10, some 1⟩] :
        List (ScanEntry Nat)).countP (sizeOk 0) ∧
     ∀ d, "a.txt" ∉ groupMembers (scanFiles (id : Nat → Nat) 0
        [⟨"a.txt", some 10, none⟩, ⟨"b.txt", some 10, some 1⟩]).groups d) :=
  ⟨by decide, by decide, by decide, by decide,
    scanned_total_counts_hash_failures (id : Nat → Nat) 0
      [⟨"a.txt", some 10, none⟩, ⟨"b.txt", some 10, some 1⟩]
      ⟨"a.txt", some 10, none⟩ 10 (by decide) (by decide) (by decide)
      (by decide) (by decide)⟩

/-! ### organize_files_by_type -/

/-- ASCII `str.lower()` on one character (the source lower-cases the
extension before the category lookup and when building collision names). -/
def lowerChar (c : Char) : Char :=
  if 'A' ≤ c ∧ c ≤ 'Z' then Char.ofNat (c.toNat + 32) else c

/-- ASCII `str.lower()` on a string. -/
def lowerStr (s : String) : String := ⟨s.data.map lowerChar⟩

/-- Split a filename at its last dot: `some (before, dot :: after)` for the
last `'.'` in the list, `none` when no dot occurs. Helper for the
`pathlib` `stem`/`suffix` pair used by the source. -/
def splitExtAux : List Char → Option (List Char × List Char)
  | [] => none
  | c :: cs =>
    match splitExtAux cs with
    | some (b, s) => some (c :: b, s)
    | none => if c = '.' then some ([], '.' :: cs) else none

/-- `pathlib.PurePath.suffix`: the part of the name from its last dot,
empty when the last dot is leading (index 0) or trailing (last char). -/
def pySuffix (name : String) : String :=
  match splitExtAux name.data with
  | some (b, s) => if b ≠ [] ∧ 2 ≤ s.length then ⟨s⟩ else ""
  | none => ""

/-- `pathlib.PurePath.stem`: the name with `pySuffix` removed. -/
def pyStem (name : String) : String :=
  match splitExtAux name.data with
  | some (b, s) => if b ≠ [] ∧ 2 ≤ s.length then ⟨b⟩ else name
  | none => name

/-- The static extension→category table of `organize_files_by_type`, in
dict insertion order ("Others" carries no extensions and is the fallback). -/
def categories : List (String × List String) :=
  [("Images", [".jpg", ".jpeg", ".png", ".gif", ".bmp", ".svg", ".webp"]),
   ("Documents", [".pdf", ".doc", ".docx", ".txt", ".md", ".odt"]),
   ("Spreadsheets", [".xls", ".xlsx", ".csv", ".ods"]),
   ("Videos", [".mp4", ".avi", ".mkv", ".mov", ".wmv", ".flv"]),
   ("Audio", [".mp3", ".wav", ".flac", ".aac", ".ogg", ".m4a"]),
   ("Archives", [".zip", ".rar", ".7z", ".tar", ".gz"]),
   ("Code", [".py", ".js", ".java", ".cpp", ".c", ".h", ".cs", ".html", ".css"]),
   ("Others", [])]

/-- The first-match category lookup of the source loop: category stays
"Others" when no extension list contains `ext`. -/
def categoryFor (ext : String) : String :=
  match categories.find? (fun c => c.2.contains ext) with
  | some c => c.1
  | none => "Others"

/-- The collision name `f"{stem}_{counter}{ext}"` prefixed by its category
directory. -/
def mkSuffixName (dir stem ext : String) (k : Nat) : String :=
  dir ++ stem ++ "_" ++ Nat.repr k ++ ext

/-- The `while destination.exists()` loop of `organize_files_by_type`,
counting up from `k` and returning the first candidate name not occupied.
`fuel` bounds the recursion; the callers pass one more than the number of
occupied names, which always suffices (the candidates are pairwise
distinct, see `OrganizeLemmas.resolveCollision_eq`). -/
def resolveCollision (occ : List String) (mk : Nat → String) : Nat → Nat → String
  | 0, k => mk k
  | fuel + 1, k => if mk k ∈ occ then resolveCollision occ mk fuel (k + 1) else mk k

/-- Destination choice for one source file named `name` in category
directory `dir`, with `occ` the paths existing on disk: the plain name if
free, otherwise the first free `{stem}_{counter}{ext}` (extension
lower-cased by the source) with the counter starting at 1. -/
def destFor (occ : List String) (dir name : String) : String :=
  if dir ++ name ∈ occ then
    resolveCollision occ (mkSuffixName dir (pyStem name) (lowerStr (pySuffix name)))
      (occ.length + 1) 1
  else dir ++ name

/-- One source file seen by `rglob` in `organize_files_by_type`: its final
path component, its byte content, and whether `shutil.copy2` succeeds for
it (`ok = false` models the `except: continue` on a per-file copy failure). -/
structure SrcFile where
  name : String
  content : Nat
  ok : Bool
deriving DecidableEq, Repr

/-- The filesystem as a path→content association list (first match wins);
`organize_files_by_type` only ever appends entries at fresh paths. -/
abbrev Fs := List (String × Nat)

/-- The category directory `target_path / category` a file named `name`
is copied into (with a trailing separator, as a path prefix). -/
def catDirFor (target name : String) : String :=
  target ++ "/" ++ categoryFor (lowerStr (pySuffix name)) ++ "/"

/-- Body of the source loop: lower-cased extension, category lookup,
collision-resolved destination under `target/category/`, then `copy2`
(modelled as appending the new path with the source's content) unless the
copy fails. -/
def organizeStep (target : String) (fs : Fs) (src : SrcFile) : Fs :=
  let dir := catDirFor target src.name
  let dest := destFor (fs.map Prod.fst) dir src.name
  if src.ok then fs ++ [(dest, src.content)] else fs

/-- `organize_files_by_type` over the snapshot of source files, starting
from filesystem state `fs`. -/
def organizeFiles (target : String) (fs : Fs) (srcs : List SrcFile) : Fs :=
  srcs.foldl (organizeStep target) fs

/-- `organize_files_by_type` with root handling: a missing source
directory is the explicit "does not exist" reply; a source that exists but
is not a directory is *not* rejected — `rglob` yields nothing and the
operation reports success having copied nothing. -/
def organizeRun (target : String) (fs : Fs) (root : FsRoot SrcFile) :
    Except OpError Fs :=
  match root with
  | .missing => .error .notFound
  | .nonDir => .ok (organizeFiles target fs [])
  | .dir srcs => .ok (organizeFiles target fs srcs)

namespace OrganizeLemmas

/-- Decimal rendering of a natural number, most significant digit first:
a clean well-founded restatement of `Nat.toDigitsCore` at base 10. -/
def digitsRec (n : Nat) : List Char :=
  if h : n < 10 then [Nat.digitChar n]
  else digitsRec (n / 10) ++ [Nat.digitChar (n % 10)]
decreasing_by
  exact Nat.div_lt_self (by omega) (by omega)

theorem toDigitsCore_eq (fuel n : Nat) (ds : List Char) (hf : n < fuel) :
    Nat.toDigitsCore 10 fuel n ds = digitsRec n ++ ds := by
  induction fuel generalizing n ds with
  | zero => omega
  | succ f ih =>
    by_cases h10 : n / 10 = 0
    · have hn : n < 10 := by omega
      rw [digitsRec]
      simp [Nat.toDigitsCore, h10, hn, Nat.mod_eq_of_lt hn]
    · have hn : ¬ n < 10 := by
        intro hlt
        exact h10 (Nat.div_eq_of_lt hlt)
      have hlt : n / 10 < n := Nat.div_lt_self (by omega) (by omega)
      rw [digitsRec]
      simp only [Nat.toDigitsCore, h10, if_false, hn, dite_false]
      rw [ih (n / 10) (Nat.digitChar (n % 10) :: ds) (by omega)]
      simp

theorem repr_eq_digitsRec (n : Nat) : Nat.repr n = ⟨digitsRec n⟩ := by
  unfold Nat.repr Nat.toDigits
  rw [toDigitsCore_eq (n + 1) n [] (Nat.lt_succ_self n)]
  simp [List.asString]

/-- Numeric value of a decimal digit character. -/
def digitVal (c : Char) : Nat := c.toNat - '0'.toNat

/-- Value of a most-significant-first decimal digit string. -/
def valOfDigits (ds : List Char) : Nat :=
  ds.foldl (fun a c => a * 10 + digitVal c) 0

theorem digitVal_digitChar : ∀ d, d < 10 → digitVal (Nat.digitChar d) = d := by
  decide

theorem valOfDigits_digitsRec (n : Nat) : valOfDigits (digitsRec n) = n := by
  induction n using Nat.strong_induction_on with
  | _ n ih =>
    by_cases h : n < 10
    · rw [digitsRec]
      simp [h, valOfDigits, digitVal_digitChar n h]
    · have hlt : n / 10 < n := Nat.div_lt_self (by omega) (by omega)
      rw [digitsRec]
      simp only [h, dite_false]
      have hfold : valOfDigits (digitsRec (n / 10) ++ [Nat.digitChar (n % 10)]) =
          valOfDigits (digitsRec (n / 10)) * 10 + digitVal (Nat.digitChar (n % 10)) := by
        simp [valOfDigits, List.foldl_append]
      rw [hfold, ih (n / 10) hlt, digitVal_digitChar (n % 10) (Nat.mod_lt n (by omega))]
      omega

theorem natRepr_injective : Function.Injective Nat.repr := by
  intro a b h
  rw [repr_eq_digitsRec, repr_eq_digitsRec] at h
  have hdata : digitsRec a = digitsRec b := congrArg String.data h
  have ha := valOfDigits_digitsRec a
  have hb := valOfDigits_digitsRec b
  rw [← ha, ← hb, hdata]

theorem string_append_cancel_left {a b c : String} (h : a ++ b = a ++ c) :
    b = c := by
  have hd : a.data ++ b.data = a.data ++ c.data := by
    simpa [String.data_append] using congrArg String.data h
  exact String.ext (List.append_cancel_left hd)

theorem string_append_cancel_right {a b c : String} (h : a ++ b = c ++ b) :
    a = c := by
  have hd : a.data ++ b.data = c.data ++ b.data := by
    simpa [String.data_append] using congrArg String.data h
  exact String.ext (List.append_cancel_right hd)

theorem mkSuffixName_inj (dir stem ext : String) {i j : Nat}
    (h : mkSuffixName dir stem ext i = mkSuffixName dir stem ext j) : i = j := by
  unfold mkSuffixName at h
  have h1 := string_append_cancel_right h
  have h2 := string_append_cancel_left h1
  exact natRepr_injective h2

theorem splitExtAux_spec (l : List Char) :
    ∀ b s, splitExtAux l = some (b, s) → l = b ++ s ∧ ∃ t, s = '.' :: t := by
  induction l with
  | nil => intro b s h; cases h
  | cons c cs ih =>
    intro b s h
    unfold splitExtAux at h
    cases hcs : splitExtAux cs with
    | some bs =>
      obtain ⟨b', s'⟩ := bs
      rw [hcs] at h
      simp only [Option.some.injEq, Prod.mk.injEq] at h
      obtain ⟨hb, hs⟩ := h
      obtain ⟨heq, t, ht⟩ := ih b' s' hcs
      subst hb
      subst hs
      exact ⟨by rw [heq]; rfl, t, ht⟩
    | none =>
      rw [hcs] at h
      by_cases hc : c = '.'
      · simp only [hc, if_true, Option.some.injEq, Prod.mk.injEq] at h
        obtain ⟨hb, hs⟩ := h
        subst hb
        subst hs
        exact ⟨by simp [hc], cs, rfl⟩
      · simp [hc] at h

theorem pyStem_append_pySuffix (n : String) : pyStem n ++ pySuffix n = n := by
  unfold pyStem pySuffix
  cases hsp : splitExtAux n.data with
  | none => simp
  | some bs =>
    obtain ⟨b, s⟩ := bs
    obtain ⟨heq, t, ht⟩ := splitExtAux_spec n.data b s hsp
    dsimp only
    by_cases hcond : b ≠ [] ∧ 2 ≤ s.length
    · rw [if_pos hcond, if_pos hcond]
      apply String.ext
      simpa [String.data_append] using heq.symm
    · rw [if_neg hcond, if_neg hcond]
      simp

theorem pySuffix_shape (n : String) :
    pySuffix n = "" ∨ ∃ t, (pySuffix n).data = '.' :: t := by
  unfold pySuffix
  cases hsp : splitExtAux n.data with
  | none => exact Or.inl rfl
  | some bs =>
    obtain ⟨b, s⟩ := bs
    obtain ⟨_, t, ht⟩ := splitExtAux_spec n.data b s hsp
    dsimp only
    by_cases hcond : b ≠ [] ∧ 2 ≤ s.length
    · rw [if_pos hcond]
      exact Or.inr ⟨t, by simp [ht]⟩
    · rw [if_neg hcond]
      exact Or.inl rfl

theorem plain_ne_suffixed (dir a b ext : String) (k : Nat)
    (hb : b = "" ∨ ∃ t, b.data = '.' :: t) :
    mkSuffixName dir a ext k ≠ dir ++ (a ++ b) := by
  intro h
  have hd := congrArg String.data h
  simp only [mkSuffixName, String.data_append, List.append_assoc] at hd
  have h1 := List.append_cancel_left hd
  have h2 := List.append_cancel_left h1
  simp only [List.cons_append, List.nil_append] at h2
  rcases hb with hb | ⟨t, ht⟩
  · rw [hb] at h2
    have he : ("" : String).data = [] := rfl
    rw [he] at h2
    cases h2
  · rw [ht] at h2
    have : '_' = '.' := List.head_eq_of_cons_eq h2
    cases this

theorem mkSuffixName_ne_plain (dir n : String) (k : Nat) :
    mkSuffixName dir (pyStem n) (lowerStr (pySuffix n)) k ≠ dir ++ n := by
  have hgen := plain_ne_suffixed dir (pyStem n) (pySuffix n)
    (lowerStr (pySuffix n)) k (pySuffix_shape n)
  rw [pyStem_append_pySuffix n] at hgen
  exact hgen

end OrganizeLemmas

/-- The destination the run assigns to the i-th (0-based) of several
same-named source files copied into category directory `dir`: the plain
name for the first, then `{stem}_{i}{ext}` with the lower-cased extension
for the colliding ones. -/
def expectedDest (dir n : String) (i : Nat) : String :=
  if i = 0 then dir ++ n
  else mkSuffixName dir (pyStem n) (lowerStr (pySuffix n)) i

/-- The filesystem entries created by a run over same-named sources with
contents `cs`, in creation order. -/
def expectedEntries (dir n : String) (cs : List Nat) : Fs :=
  List.zipWith (fun i c => (expectedDest dir n i, c)) (List.range cs.length) cs

namespace OrganizeLemmas

theorem resolveCollision_eq (occ : List String) (mk : Nat → String) (j : Nat) :
    ∀ fuel k, k ≤ j → j < k + fuel →
      (∀ i, k ≤ i → i < j → mk i ∈ occ) → mk j ∉ occ →
      resolveCollision occ mk fuel k = mk j := by
  intro fuel
  induction fuel with
  | zero => intro k _ hf _ _; omega
  | succ f ih =>
    intro k hk hf hocc hj
    simp only [resolveCollision]
    by_cases hkj : k = j
    · subst hkj
      rw [if_neg hj]
    · have hkm : mk k ∈ occ := hocc k le_rfl (by omega)
      rw [if_pos hkm]
      exact ih (k + 1) (by omega) (by omega) (fun i h1 h2 => hocc i (by omega) h2) hj

theorem resolveCollision_shape (occ : List String) (mk : Nat → String) :
    ∀ fuel k, ∃ j, resolveCollision occ mk fuel k = mk j := by
  intro fuel
  induction fuel with
  | zero => intro k; exact ⟨k, rfl⟩
  | succ f ih =>
    intro k
    simp only [resolveCollision]
    by_cases h : mk k ∈ occ
    · rw [if_pos h]; exact ih (k + 1)
    · rw [if_neg h]; exact ⟨k, rfl⟩

theorem destFor_shape (occ : List String) (dir name : String) :
    destFor occ dir name = dir ++ name ∨
    ∃ j, destFor occ dir name =
      mkSuffixName dir (pyStem name) (lowerStr (pySuffix name)) j := by
  unfold destFor
  by_cases h : dir ++ name ∈ occ
  · rw [if_pos h]
    exact Or.inr (resolveCollision_shape occ _ (occ.length + 1) 1)
  · rw [if_neg h]
    exact Or.inl rfl

theorem mkSuffixName_dir_append (dir stem ext : String) (k : Nat) :
    mkSuffixName dir stem ext k = dir ++ (stem ++ ("_" ++ (Nat.repr k ++ ext))) := by
  simp [mkSuffixName, String.append_assoc]

theorem map_fst_zipWith_pair {γ : Type} (f : Nat → String) :
    ∀ (l₁ : List Nat) (l₂ : List γ), l₁.length = l₂.length →
      (List.zipWith (fun i c => (f i, c)) l₁ l₂).map Prod.fst = l₁.map f := by
  intro l₁
  induction l₁ with
  | nil => intro l₂ _; simp
  | cons x xs ih =>
    intro l₂ hl
    cases l₂ with
    | nil => simp at hl
    | cons y ys => simp [ih ys (by simpa using hl)]

theorem expectedDest_inj (dir n : String) {i j : Nat}
    (h : expectedDest dir n i = expectedDest dir n j) : i = j := by
  unfold expectedDest at h
  by_cases hi : i = 0 <;> by_cases hj : j = 0
  · omega
  · rw [if_pos hi, if_neg hj] at h
    exact absurd h.symm (mkSuffixName_ne_plain dir n j)
  · rw [if_neg hi, if_pos hj] at h
    exact absurd h (mkSuffixName_ne_plain dir n i)
  · rw [if_neg hi, if_neg hj] at h
    exact mkSuffixName_inj _ _ _ h

theorem destFor_expected (dir n : String) (fs₀ : Fs)
    (hfs : ∀ p ∈ fs₀.map Prod.fst, ∀ r, p ≠ dir ++ r) (cs : List Nat) :
    destFor ((fs₀ ++ expectedEntries dir n cs).map Prod.fst) dir n =
      expectedDest dir n cs.length := by
  have hkeys : (fs₀ ++ expectedEntries dir n cs).map Prod.fst =
      fs₀.map Prod.fst ++ (List.range cs.length).map (expectedDest dir n) := by
    rw [List.map_append, expectedEntries,
      map_fst_zipWith_pair (expectedDest dir n) _ cs (by simp)]
  have hplain : expectedDest dir n 0 = dir ++ n := by simp [expectedDest]
  cases hcs : cs.length with
  | zero =>
    have hnotin : dir ++ n ∉ (fs₀ ++ expectedEntries dir n cs).map Prod.fst := by
      rw [hkeys, hcs]
      simp only [List.range_zero, List.map_nil, List.append_nil]
      intro hmem
      exact hfs _ hmem n rfl
    rw [destFor, if_neg hnotin, ← hplain]
  | succ m =>
    have hin : dir ++ n ∈ (fs₀ ++ expectedEntries dir n cs).map Prod.fst := by
      rw [hkeys, ← hplain]
      refine List.mem_append_right _ (List.mem_map.mpr ⟨0, ?_, rfl⟩)
      rw [List.mem_range, hcs]
      omega
    rw [destFor, if_pos hin]
    have hlen : ((fs₀ ++ expectedEntries dir n cs).map Prod.fst).length =
        fs₀.length + (m + 1) := by
      rw [hkeys, List.length_append, List.length_map, List.length_map,
        List.length_range, hcs]
    refine resolveCollision_eq _ _ (m + 1) _ 1 (by omega) (by omega) ?_ ?_
    · intro i h1 h2
      rw [hkeys]
      refine List.mem_append_right _ (List.mem_map.mpr ⟨i, ?_, ?_⟩)
      · rw [List.mem_range, hcs]
        omega
      · rw [expectedDest, if_neg (by omega : ¬ i = 0)]
    · intro hmem
      rw [hkeys] at hmem
      rcases List.mem_append.mp hmem with hmem | hmem
      · refine hfs _ hmem (pyStem n ++ ("_" ++ (Nat.repr (m + 1) ++ lowerStr (pySuffix n)))) ?_
        exact mkSuffixName_dir_append dir (pyStem n) (lowerStr (pySuffix n)) (m + 1)
      · rcases List.mem_map.mp hmem with ⟨i, hir, hieq⟩
        rw [List.mem_range, hcs] at hir
        by_cases hi : i = 0
        · subst hi
          rw [hplain] at hieq
          exact mkSuffixName_ne_plain dir n (m + 1) hieq.symm
        · rw [expectedDest, if_neg hi] at hieq
          have := mkSuffixName_inj dir (pyStem n) (lowerStr (pySuffix n)) hieq
          omega

theorem organize_loop (tgt n : String) (fs₀ : Fs)
    (hfs : ∀ p ∈ fs₀.map Prod.fst, ∀ r, p ≠ catDirFor tgt n ++ r)
    (cs : List Nat) :
    organizeFiles tgt fs₀ (cs.map fun c => (⟨n, c, true⟩ : SrcFile)) =
      fs₀ ++ expectedEntries (catDirFor tgt n) n cs := by
  induction cs using List.reverseRecOn with
  | nil => simp [organizeFiles, expectedEntries]
  | append_singleton cs c ih =>
    have hsplit : organizeFiles tgt fs₀
        ((cs ++ [c]).map fun c => (⟨n, c, true⟩ : SrcFile)) =
        organizeStep tgt
          (organizeFiles tgt fs₀ (cs.map fun c => (⟨n, c, true⟩ : SrcFile)))
          ⟨n, c, true⟩ := by
      rw [List.map_append]
      simp [organizeFiles, List.foldl_append]
    rw [hsplit, ih]
    have hdest := destFor_expected (catDirFor tgt n) n fs₀ hfs cs
    have hE : expectedEntries (catDirFor tgt n) n (cs ++ [c]) =
        expectedEntries (catDirFor tgt n) n cs ++
          [(expectedDest (catDirFor tgt n) n cs.length, c)] := by
      unfold expectedEntries
      rw [List.length_append, List.length_singleton, List.range_succ,
        List.zipWith_append _ _ _ _ _ (by simp)]
      simp
    show (fs₀ ++ expectedEntries (catDirFor tgt n) n cs) ++
        [(destFor ((fs₀ ++ expectedEntries (catDirFor tgt n) n cs).map Prod.fst)
            (catDirFor tgt n) n, c)] =
      fs₀ ++ expectedEntries (catDirFor tgt n) n (cs ++ [c])
    rw [hdest, hE, List.append_assoc]

end OrganizeLemmas

/-- Claim C2 counterexample: two source files both named `A.TXT` collide;
the second is copied to `A_1.txt` — the numeric suffix is appended with
the lower-cased extension, so the original extension `.TXT` is *not*
preserved (no file `A_1.TXT` is created). -/
theorem organize_extension_lowercased_counterexample :
    organizeFiles "t" [] [⟨"A.TXT", 1, true⟩, ⟨"A.TXT", 2, true⟩] =
      [("t/Documents/A.TXT", 1), ("t/Documents/A_1.txt", 2)] ∧
    "t/Documents/A_1.TXT" ∉
      (organizeFiles "t" [] [⟨"A.TXT", 1, true⟩, ⟨"A.TXT", 2, true⟩]).map Prod.fst := by
  constructor
  · decide
  · decide

/-- Claim C2 (amended): when N source files with the same name map to the
same (category, filename) destination, all copies succeed, and nothing at
the target category directory pre-exists, the run creates exactly N
pairwise-distinct destination files: the plain name first, then
`{stem}_{counter}{lower-cased ext}` with the counter starting at 1 and
incrementing until an unused name is found. -/
theorem organize_collision_suffixes (tgt n : String) (cs : List Nat) (fs₀ : Fs)
    (hfs : ∀ p ∈ fs₀.map Prod.fst, ∀ r, p ≠ catDirFor tgt n ++ r) :
    organizeFiles tgt fs₀ (cs.map fun c => (⟨n, c, true⟩ : SrcFile)) =
      fs₀ ++ expectedEntries (catDirFor tgt n) n cs ∧
    ((List.range cs.length).map (expectedDest (catDirFor tgt n) n)).Nodup := by
  refine ⟨OrganizeLemmas.organize_loop tgt n fs₀ hfs cs, ?_⟩
  refine List.Nodup.map_on ?_ (List.nodup_range _)
  intro x _ y _ hxy
  exact OrganizeLemmas.expectedDest_inj (catDirFor tgt n) n hxy

/-- Claim C2 witness: two same-named sources into an empty filesystem. -/
theorem organize_collision_suffixes_witness :
    (∀ p ∈ ([] : Fs).map Prod.fst, ∀ r, p ≠ catDirFor "t" "a.txt" ++ r) ∧
    (organizeFiles "t" [] ([1, 2].map fun c => (⟨"a.txt", c, true⟩ : SrcFile)) =
      [] ++ expectedEntries (catDirFor "t" "a.txt") "a.txt" [1, 2] ∧
     ((List.range ([1, 2] : List Nat).length).map
        (expectedDest (catDirFor "t" "a.txt") "a.txt")).Nodup) :=
  ⟨by simp,
    organize_collision_suffixes "t" "a.txt" [1, 2] [] (by simp)⟩

namespace OrganizeLemmas

theorem lookup_append_of_mem {l l' : Fs} {p : String}
    (hp : p ∈ l.map Prod.fst) : (l ++ l').lookup p = l.lookup p := by
  induction l with
  | nil => simp at hp
  | cons a l ih =>
    obtain ⟨k, v⟩ := a
    by_cases hk : p == k
    · simp [List.lookup, hk]
    · simp only [List.map_cons, List.mem_cons] at hp
      rcases hp with hp | hp
      · exact absurd (beq_iff_eq.mpr hp) (by simpa using hk)
      · simp only [List.cons_append, List.lookup, hk]
        exact ih hp

theorem dest_under_target (tgt name : String) (occ : List String) :
    ∃ r, destFor occ (catDirFor tgt name) name = tgt ++ "/" ++ r := by
  rcases destFor_shape occ (catDirFor tgt name) name with h | ⟨j, h⟩
  · refine ⟨categoryFor (lowerStr (pySuffix name)) ++ ("/" ++ name), ?_⟩
    rw [h, catDirFor, String.append_assoc, String.append_assoc]
  · refine ⟨categoryFor (lowerStr (pySuffix name)) ++
      ("/" ++ (pyStem name ++ ("_" ++ (Nat.repr j ++ lowerStr (pySuffix name))))), ?_⟩
    rw [h, mkSuffixName_dir_append, catDirFor, String.append_assoc,
      String.append_assoc]

theorem organize_appends (tgt : String) (srcs : List SrcFile) :
    ∀ fs : Fs, ∃ added : Fs, organizeFiles tgt fs srcs = fs ++ added ∧
      ∀ q ∈ added.map Prod.fst, ∃ r, q = tgt ++ "/" ++ r := by
  induction srcs with
  | nil => intro fs; exact ⟨[], by simp [organizeFiles], by simp⟩
  | cons s ss ih =>
    intro fs
    have hstep : ∃ δ : Fs, organizeStep tgt fs s = fs ++ δ ∧
        ∀ q ∈ δ.map Prod.fst, ∃ r, q = tgt ++ "/" ++ r := by
      by_cases hok : s.ok
      · refine ⟨[(destFor (fs.map Prod.fst) (catDirFor tgt s.name) s.name,
          s.content)], by simp [organizeStep, hok], ?_⟩
        intro q hq
        simp only [List.map_cons, List.map_nil, List.mem_singleton] at hq
        subst hq
        exact dest_under_target tgt s.name (fs.map Prod.fst)
      · refine ⟨[], by simp [organizeStep, hok], by simp⟩
    obtain ⟨δ, hδ, hδq⟩ := hstep
    obtain ⟨added, hadd, haddq⟩ := ih (organizeStep tgt fs s)
    refine ⟨δ ++ added, ?_, ?_⟩
    · have : organizeFiles tgt fs (s :: ss) = organizeFiles tgt (organizeStep tgt fs s) ss := rfl
      rw [this, hadd, hδ, List.append_assoc]
    · intro q hq
      rw [List.map_append, List.mem_append] at hq
      rcases hq with hq | hq
      · exact hδq q hq
      · exact haddq q hq

end OrganizeLemmas

/-- Claim C8: `organize_files_by_type` copies rather than moves — after
any run every pre-existing file (in particular every source file) still
resolves to its original content, and the run only appends new entries,
all of them under the target directory. -/
theorem organize_copies_not_moves (tgt : String) (fs₀ : Fs)
    (srcs : List SrcFile) (p : String) (hp : p ∈ fs₀.map Prod.fst) :
    (organizeFiles tgt fs₀ srcs).lookup p = fs₀.lookup p ∧
    ∃ added : Fs, organizeFiles tgt fs₀ srcs = fs₀ ++ added ∧
      ∀ q ∈ added.map Prod.fst, ∃ r, q = tgt ++ "/" ++ r := by
  obtain ⟨added, hadd, haddq⟩ := OrganizeLemmas.organize_appends tgt srcs fs₀
  refine ⟨?_, added, hadd, haddq⟩
  rw [hadd]
  exact OrganizeLemmas.lookup_append_of_mem hp

/-- Claim C8 witness: one source file copied next to an existing file. -/
theorem organize_copies_not_moves_witness :
    ("src/a.txt" ∈ ([("src/a.txt", 5)] : Fs).map Prod.fst) ∧
    ((organizeFiles "t" [("src/a.txt", 5)] [⟨"a.txt", 7, true⟩]).lookup "src/a.txt" =
        ([("src/a.txt", 5)] : Fs).lookup "src/a.txt" ∧
      ∃ added : Fs,
        organizeFiles "t" [("src/a.txt", 5)] [⟨"a.txt", 7, true⟩] =
          [("src/a.txt", 5)] ++ added ∧
        ∀ q ∈ added.map Prod.fst, ∃ r, q = "t" ++ "/" ++ r) :=
  ⟨by decide,
    organize_copies_not_moves "t" [("src/a.txt", 5)] [⟨"a.txt", 7, true⟩]
      "src/a.txt" (by decide)⟩

/-! ### batch_rename_files -/

/-- One entry of `Path.iterdir` (single level): its name and whether it is
a regular file (only files are renamed, but any entry occupies a name). -/
structure DirEntry where
  name : String
  isFile : Bool
deriving DecidableEq, Repr

/-- Running state of the rename loop: the names currently existing in the
directory, and the (old, new) pairs applied so far, in order. -/
structure RenState where
  current : List String
  renamed : List (String × String)
deriving DecidableEq, Repr

/-- The optional extension filter: `if extensions and file_path.suffix not
in extensions: continue`. -/
def extFilterPass (exts : Option (List String)) (name : String) : Bool :=
  match exts with
  | none => true
  | some xs => xs.contains (pySuffix name)

/-- Body of the `for file_path in path_obj.iterdir()` loop of
`batch_rename_files`: only regular files passing the extension filter are
considered; the substituted name is applied only when it differs from the
old name and does not already exist (`if new_path.exists(): continue`); a
rename replaces the old name by the new one and records the pair. -/
def renStep (sub : String → String) (exts : Option (List String))
    (st : RenState) (e : DirEntry) : RenState :=
  if e.isFile && extFilterPass exts e.name then
    let new := sub e.name
    if new ≠ e.name then
      if new ∈ st.current then st
      else ⟨st.current.erase e.name ++ [new], st.renamed ++ [(e.name, new)]⟩
    else st
  else st

/-- `batch_rename_files` over the directory listing snapshot; the regex
substitution `re.sub(pattern, replacement, old_name)` is the abstract
function `sub` of the old name. -/
def runRename (sub : String → String) (exts : Option (List String))
    (listing : List DirEntry) : RenState :=
  listing.foldl (renStep sub exts) ⟨listing.map (fun e => e.name), []⟩

/-- `batch_rename_files` with root handling: `iterdir()` on an existing
non-directory raises `NotADirectoryError`, caught by the blanket `except`
and reported as a generic error message. -/
def batchRenameRun (sub : String → String) (exts : Option (List String))
    (root : FsRoot DirEntry) : Except OpError (List (String × String)) :=
  match root with
  | .missing => .error .notFound
  | .nonDir => .error (.other "NotADirectoryError")
  | .dir l => .ok (runRename sub exts l).renamed

namespace Rename

theorem ren_preserve (sub : String → String) (exts : Option (List String))
    (entries : List DirEntry) (x : String) :
    ∀ st : RenState, x ∈ st.current → (∀ y ∈ entries, y.name ≠ x) →
      (∀ q ∈ st.renamed, q.1 ≠ x) →
      x ∈ (entries.foldl (renStep sub exts) st).current ∧
      ∀ q ∈ (entries.foldl (renStep sub exts) st).renamed, q.1 ≠ x := by
  induction entries with
  | nil => intro st hx _ hren; exact ⟨hx, hren⟩
  | cons y ys ih =>
    intro st hx hne hren
    have hyx : y.name ≠ x := hne y (List.mem_cons_self y ys)
    have hstep : x ∈ (renStep sub exts st y).current ∧
        ∀ q ∈ (renStep sub exts st y).renamed, q.1 ≠ x := by
      unfold renStep
      by_cases hp : y.isFile && extFilterPass exts y.name
      · rw [if_pos hp]
        dsimp only
        by_cases hdiff : sub y.name ≠ y.name
        · rw [if_pos hdiff]
          by_cases hcol : sub y.name ∈ st.current
          · rw [if_pos hcol]; exact ⟨hx, hren⟩
          · rw [if_neg hcol]
            refine ⟨List.mem_append_left _ ?_, ?_⟩
            · exact (List.mem_erase_of_ne (fun h => hyx h.symm)).mpr hx
            · intro q hq
              rcases List.mem_append.mp hq with hq | hq
              · exact hren q hq
              · rw [List.mem_singleton] at hq
                rw [hq]
                exact hyx
        · rw [if_neg hdiff]; exact ⟨hx, hren⟩
      · rw [if_neg hp]; exact ⟨hx, hren⟩
    exact ih (renStep sub exts st y) hstep.1
      (fun z hz => hne z (List.mem_cons_of_mem y hz)) hstep.2

end Rename

/-- Claim C5: `batch_rename_files` never overwrites: a file whose computed
new name already exists in the directory at the moment it is processed is
left unrenamed (its old name still exists afterwards) and contributes no
(old, new) pair to the applied list. -/
theorem batch_rename_never_overwrites (sub : String → String)
    (exts : Option (List String)) (pre post : List DirEntry) (e : DirEntry)
    (hfile : e.isFile = true) (hpass : extFilterPass exts e.name = true)
    (hdiff : sub e.name ≠ e.name)
    (hnodup : ((pre ++ e :: post).map (fun y => y.name)).Nodup)
    (hcol : sub e.name ∈ (pre.foldl (renStep sub exts)
        ⟨(pre ++ e :: post).map (fun y => y.name), []⟩).current) :
    e.name ∈ (runRename sub exts (pre ++ e :: post)).current ∧
    ∀ q ∈ (runRename sub exts (pre ++ e :: post)).renamed, q.1 ≠ e.name := by
  rw [List.map_append, List.map_cons] at hnodup
  obtain ⟨hn1, hn2, hdisj⟩ := List.nodup_append.mp hnodup
  obtain ⟨hnotin, _⟩ := List.nodup_cons.mp hn2
  have hpre : ∀ y ∈ pre, y.name ≠ e.name := by
    intro y hy heq
    exact hdisj (List.mem_map.mpr ⟨y, hy, rfl⟩) (heq ▸ List.mem_cons_self _ _)
  have hpost : ∀ y ∈ post, y.name ≠ e.name := by
    intro y hy heq
    exact hnotin (heq ▸ List.mem_map.mpr ⟨y, hy, rfl⟩)
  have hinit : e.name ∈ ((pre ++ e :: post).map (fun y => y.name)) :=
    List.mem_map.mpr ⟨e, List.mem_append_right _ (List.mem_cons_self _ _), rfl⟩
  have hstage1 := Rename.ren_preserve sub exts pre e.name
    ⟨(pre ++ e :: post).map (fun y => y.name), []⟩ hinit hpre (by simp)
  set st1 := pre.foldl (renStep sub exts)
    ⟨(pre ++ e :: post).map (fun y => y.name), []⟩ with hst1
  have hskip : renStep sub exts st1 e = st1 := by
    unfold renStep
    rw [if_pos (by rw [hfile, hpass]; rfl)]
    dsimp only
    rw [if_pos hdiff, if_pos hcol]
  have hrun : runRename sub exts (pre ++ e :: post) =
      post.foldl (renStep sub exts) (renStep sub exts st1 e) := by
    unfold runRename
    rw [List.foldl_append, List.foldl_cons]
  rw [hrun, hskip]
  exact Rename.ren_preserve sub exts post e.name st1 hstage1.1 hpost hstage1.2

/-- Claim C5 witness: renaming `a.txt` to the already-existing `b.txt` is
skipped and produces no applied pair. -/
theorem batch_rename_never_overwrites_witness :
    ((⟨"a.txt", true⟩ : DirEntry).isFile = true) ∧
    (extFilterPass none "a.txt" = true) ∧
    ((fun s => if s = "a.txt" then "b.txt" else s) "a.txt" ≠ "a.txt") ∧
    ((([] ++ (⟨"a.txt", true⟩ : DirEntry) :: [⟨"b.txt", true⟩]).map
        (fun y : DirEntry => y.name)).Nodup) ∧
    ((fun s => if s = "a.txt" then "b.txt" else s) "a.txt" ∈
      (([] : List DirEntry).foldl
        (renStep (fun s => if s = "a.txt" then "b.txt" else s) none)
        ⟨(([] ++ (⟨"a.txt", true⟩ : DirEntry) :: [⟨"b.txt", true⟩]).map
            (fun y : DirEntry => y.name)), []⟩).current) ∧
    ("a.txt" ∈ (runRename (fun s => if s = "a.txt" then "b.txt" else s) none
        ([] ++ (⟨"a.txt", true⟩ : DirEntry) :: [⟨"b.txt", true⟩])).current ∧
      ∀ q ∈ (runRename (fun s => if s = "a.txt" then "b.txt" else s) none
          ([] ++ (⟨"a.txt", true⟩ : DirEntry) :: [⟨"b.txt", true⟩])).renamed,
        q.1 ≠ "a.txt") :=
  ⟨by decide, by decide, by decide, by decide, by decide,
    batch_rename_never_overwrites (fun s => if s = "a.txt" then "b.txt" else s)
      none [] [⟨"b.txt", true⟩] ⟨"a.txt", true⟩
      (by decide) (by decide) (by decide) (by decide) (by decide)⟩

/-! ### get_directory_statistics -/

/-- One entry of the `rglob` traversal in `get_directory_statistics`:
either a regular file (with its name, stat size and modification time) or
a directory. -/
inductive StatEntry where
  | file (name : String) (size : Nat) (mtime : Nat) : StatEntry
  | dirEntry : StatEntry
deriving DecidableEq, Repr

/-- The `stats` accumulator of `get_directory_statistics`. The initial
extremal records are the numeric sentinels of the source: `('', 0)` for
largest and newest, `('', float('inf'))` for oldest — the infinite
sentinel is modelled as `none`. -/
structure DirStats where
  totalFiles : Nat
  totalDirs : Nat
  totalSize : Nat
  fileTypes : List (String × Nat)
  largest : String × Nat
  oldest : String × Option Nat
  newest : String × Nat
deriving DecidableEq, Repr

/-- The initial accumulator literal of the source. -/
def statsInit : DirStats := ⟨0, 0, 0, [], ("", 0), ("", none), ("", 0)⟩

/-- `stats['file_types'][key] += 1` on the insertion-ordered defaultdict. -/
def bumpType (h : List (String × Nat)) (k : String) : List (String × Nat) :=
  match h with
  | [] => [(k, 1)]
  | (q, c) :: rest => if q = k then (q, c + 1) :: rest else (q, c) :: bumpType rest k

/-- `mtime < stats['oldest_file'][1]` where the right side may be the
`float('inf')` sentinel (every finite time is below it). -/
def ltInf (m : Nat) (o : Option Nat) : Bool :=
  match o with
  | none => true
  | some v => decide (m < v)

/-- `item.suffix or 'No extension'`: the empty suffix is falsy in Python,
so extension-less files land in the explicit bucket. -/
def extKey (name : String) : String :=
  if pySuffix name = "" then "No extension" else pySuffix name

/-- Body of the traversal loop of `get_directory_statistics`. -/
def statsStep (st : DirStats) (e : StatEntry) : DirStats :=
  match e with
  | .dirEntry => { st with totalDirs := st.totalDirs + 1 }
  | .file name size mtime =>
    let st1 := { st with
      totalFiles := st.totalFiles + 1,
      totalSize := st.totalSize + size,
      fileTypes := bumpType st.fileTypes (extKey name) }
    let st2 := if st1.largest.2 < size then { st1 with largest := (name, size) } else st1
    let st3 := if ltInf mtime st2.oldest.2 then { st2 with oldest := (name, some mtime) } else st2
    if st3.newest.2 < mtime then { st3 with newest := (name, mtime) } else st3

/-- The whole accumulation pass of `get_directory_statistics`. -/
def statsFold (entries : List StatEntry) : DirStats :=
  entries.foldl statsStep statsInit

/-- Sum of all histogram bucket counts. -/
def sumCounts (h : List (String × Nat)) : Nat := (h.map Prod.snd).sum

/-- The output-formatting stage: rendering the oldest-file record calls
`datetime.fromtimestamp` on the stored timestamp, which raises on the
`float('inf')` sentinel; the blanket `except` turns that into an error
reply, so no statistics are returned. -/
def finalizeStats (s : DirStats) : Except OpError DirStats :=
  match s.oldest.2 with
  | none => .error (.other "OverflowError: timestamp out of range")
  | some _ => .ok s

/-- `get_directory_statistics` with root handling: a missing root is the
explicit "does not exist" reply; an existing non-directory root is *not*
rejected — `rglob` yields nothing and the empty accumulation then fails in
formatting. -/
def dirStatsRun (root : FsRoot StatEntry) : Except OpError DirStats :=
  match root with
  | .missing => .error .notFound
  | .nonDir => finalizeStats (statsFold [])
  | .dir es => finalizeStats (statsFold es)

/-- Claim C3 counterexample: on an empty directory `get_directory_statistics`
does not return the zero statistics with a "no data" extremal state — the
oldest-file record still holds the infinite sentinel, whose timestamp
formatting raises, and the caller receives an error reply instead. -/
theorem dir_stats_empty_counterexample :
    dirStatsRun (FsRoot.dir []) =
      Except.error (OpError.other "OverflowError: timestamp out of range") ∧
    ∀ s : DirStats, dirStatsRun (FsRoot.dir []) ≠ Except.ok s := by
  constructor
  · rfl
  · intro s h
    cases h

/-- Claim C3 (amended): for an empty directory the accumulator does reach
total_files = 0, total_dirs = 0, total_size = 0 and an empty histogram,
but the three extremal records remain numeric sentinels — ('', 0) for
largest and newest, ('', inf) for oldest — and the operation then fails
with a generic error while formatting the infinite oldest timestamp, so no
statistics (and no explicit "no data" state) reach the caller. -/
theorem dir_stats_empty_sentinels :
    statsFold [] = statsInit ∧
    (statsFold []).totalFiles = 0 ∧
    (statsFold []).totalDirs = 0 ∧
    (statsFold []).totalSize = 0 ∧
    (statsFold []).fileTypes = [] ∧
    (statsFold []).largest = ("", 0) ∧
    (statsFold []).oldest = ("", none) ∧
    (statsFold []).newest = ("", 0) ∧
    dirStatsRun (FsRoot.dir []) =
      Except.error (OpError.other "OverflowError: timestamp out of range") := by
  exact ⟨rfl, rfl, rfl, rfl, rfl, rfl, rfl, rfl, rfl⟩

namespace Stats

theorem sumCounts_bumpType (h : List (String × Nat)) (k : String) :
    sumCounts (bumpType h k) = sumCounts h + 1 := by
  induction h with
  | nil => simp [bumpType, sumCounts]
  | cons a rest ih =>
    obtain ⟨q, c⟩ := a
    by_cases hq : q = k
    · simp [bumpType, hq, sumCounts]
      omega
    · simp only [bumpType, if_neg hq]
      simp only [sumCounts, List.map_cons, List.sum_cons] at *
      omega

theorem statsStep_file_fields (st : DirStats) (name : String) (size mtime : Nat) :
    (statsStep st (.file name size mtime)).totalFiles = st.totalFiles + 1 ∧
    (statsStep st (.file name size mtime)).fileTypes =
      bumpType st.fileTypes (extKey name) := by
  unfold statsStep
  dsimp only
  split <;> split <;> split <;> exact ⟨rfl, rfl⟩

theorem statsStep_preserves (st : DirStats) (e : StatEntry)
    (hst : st.totalFiles = sumCounts st.fileTypes) :
    (statsStep st e).totalFiles = sumCounts (statsStep st e).fileTypes := by
  cases e with
  | dirEntry => simpa [statsStep] using hst
  | file name size mtime =>
    obtain ⟨h1, h2⟩ := statsStep_file_fields st name size mtime
    rw [h1, h2, sumCounts_bumpType, hst]

end Stats

/-- Claim C9: for every traversal, the total file count of
`get_directory_statistics` equals the sum of all extension-histogram
bucket counts (extension-less files are counted in the explicit
"No extension" bucket). -/
theorem stats_total_files_eq_histogram_sum (entries : List StatEntry) :
    (statsFold entries).totalFiles = sumCounts (statsFold entries).fileTypes := by
  suffices h : ∀ st : DirStats, st.totalFiles = sumCounts st.fileTypes →
      (entries.foldl statsStep st).totalFiles =
        sumCounts (entries.foldl statsStep st).fileTypes by
    exact h statsInit (by simp [statsInit, sumCounts])
  induction entries with
  | nil => intro st hst; simpa using hst
  | cons e es ih =>
    intro st hst
    exact ih (statsStep st e) (Stats.statsStep_preserves st e hst)

/-- Claim C4 counterexample: `find_duplicate_files` on a root that exists
but is not a directory does not fail with a NotADirectory error — it
succeeds with a normal "scanned 0 files, no duplicates" reply. -/
theorem find_duplicates_nondir_succeeds :
    findDuplicatesRun (id : Nat → Nat) 0 FsRoot.nonDir = Except.ok (0, []) ∧
    ∀ err : OpError, findDuplicatesRun (id : Nat → Nat) 0 FsRoot.nonDir ≠
      Except.error err := by
  constructor
  · rfl
  · intro err h
    cases h

/-- Claim C4 (amended): only the missing-root case is checked; a root that
exists but is not a directory is never rejected with a structured
NotADirectory error. `find_duplicate_files` and `organize_files_by_type`
silently treat it as an empty tree and report success over zero files;
`get_directory_statistics` also traverses nothing, then fails with a
generic formatting error on the untouched infinite sentinel; only
`batch_rename_files` fails because of the root's kind, and it surfaces the
OS `NotADirectoryError` as a generic caught-exception reply. -/
theorem nondir_root_not_rejected {α β : Type} [DecidableEq β] (hash : α → β)
    (m : Nat) (tgt : String) (fs : Fs) (sub : String → String)
    (exts : Option (List String)) :
    findDuplicatesRun hash m FsRoot.nonDir = Except.ok (0, []) ∧
    organizeRun tgt fs FsRoot.nonDir = Except.ok fs ∧
    batchRenameRun sub exts FsRoot.nonDir =
      Except.error (OpError.other "NotADirectoryError") ∧
    dirStatsRun FsRoot.nonDir =
      Except.error (OpError.other "OverflowError: timestamp out of range") :=
  ⟨rfl, rfl, rfl, rfl⟩
